import Mathlib

/-!
# Verification of the chained hash table

This development embeds the hash table of
`src/project/Assignment_5/hash_table.py` (class `HashTable`, a hash table
with separate chaining, a 0.75 load-factor threshold and capacity-doubling
resize) and proves the specified properties about it.

Modelling conventions:

* A table is its three mutable fields: `_capacity`, `_size`, `_buckets`.
* Python `hash` is an arbitrary function `hsh : K → Int`; the bucket index
  `hash(key) % self._capacity` is `(hsh key % cap).toNat`, which for
  `0 < cap` agrees with Python's nonnegative `%`.
* The float comparison `self._size / self._capacity > 0.75` is read as the
  exact rational comparison `4 * size > 3 * capacity`.
* `_resize` re-enters `__setitem__` for every replayed entry, so
  `__setitem__` is embedded fuel-indexed (`setitemF`); the theorem for C8
  shows one unit of fuel (a single, non-recursive resize) is always enough
  on well-formed tables.
* `KeyError` is `none` / `Option`-failure.
-/

set_option linter.unusedSectionVars false

namespace HashTableSpec

/-- The mutable state of a Python `HashTable`:
`_capacity`, `_size`, and `_buckets` (a list of chains of key/value pairs). -/
structure HashTable (K V : Type) where
  capacity : Nat
  size : Nat
  buckets : List (List (K × V))
deriving DecidableEq

variable {K V : Type} [DecidableEq K]

/-- Python `_hash`: `hash(key) % self._capacity`. For positive capacity this
is the canonical nonnegative residue, exactly Python's `%`. -/
def bucketIndex (hsh : K → Int) (cap : Nat) (key : K) : Nat :=
  (hsh key % (cap : Int)).toNat

/-- The linear scan of a bucket chain used by `__getitem__`:
first entry whose key equals `key`. -/
def lookupB (key : K) : List (K × V) → Option V
  | [] => none
  | e :: rest => if e.1 = key then some e.2 else lookupB key rest

/-- The scan-and-replace loop of `__setitem__`: replace the value at the
first entry with a matching key (`bucket[i] = (key, value)`), or `none`
if the key is absent from the bucket. -/
def replaceEntry (key : K) (val : V) : List (K × V) → Option (List (K × V))
  | [] => none
  | e :: rest =>
    if e.1 = key then some ((key, val) :: rest)
    else (replaceEntry key val rest).map (fun b => e :: b)

/-- The scan-and-delete loop of `__delitem__`: drop the first entry with a
matching key (`del bucket[i]`), or `none` if the key is absent. -/
def removeEntry (key : K) : List (K × V) → Option (List (K × V))
  | [] => none
  | e :: rest =>
    if e.1 = key then some rest
    else (removeEntry key rest).map (fun b => e :: b)

/-- Python `__init__`: stores the given capacity and `capacity` empty
buckets, size `0`.  Note: the constructor performs no validation of
`capacity`; it returns normally for every argument. -/
def HashTable.init (K V : Type) (capacity : Nat) : HashTable K V :=
  ⟨capacity, 0, List.replicate capacity []⟩

/-- The lookup a table denotes: scan the bucket the key hashes to. -/
def find (hsh : K → Int) (t : HashTable K V) (key : K) : Option V :=
  lookupB key (t.buckets.getD (bucketIndex hsh t.capacity key) [])

/-- Python `__getitem__`: the value at `key`, or failure
(`KeyError` ≙ `none`). -/
def getitem (hsh : K → Int) (t : HashTable K V) (key : K) : Option V :=
  find hsh t key

/-- Python `__contains__`: `any(k == key for k, _ in self._buckets[index])`. -/
def containsKey (hsh : K → Int) (t : HashTable K V) (key : K) : Bool :=
  (t.buckets.getD (bucketIndex hsh t.capacity key) []).any
    (fun e => decide (e.1 = key))

/-- The body of Python `__setitem__`, with the `_resize` call abstracted:
compute the index, scan the bucket; on a match replace in place and return;
otherwise append the entry, increment `_size`, and when the load factor
exceeds 0.75 invoke `resize`. -/
def setitemCore (hsh : K → Int) (resize : HashTable K V → HashTable K V)
    (t : HashTable K V) (key : K) (val : V) : HashTable K V :=
  let index := bucketIndex hsh t.capacity key
  let bucket := t.buckets.getD index []
  match replaceEntry key val bucket with
  | some b2 => ⟨t.capacity, t.size, t.buckets.set index b2⟩
  | none =>
    let grown : HashTable K V :=
      ⟨t.capacity, t.size + 1, t.buckets.set index (bucket ++ [(key, val)])⟩
    if 4 * grown.size > 3 * grown.capacity then resize grown else grown

/-- Python `_resize`: double the capacity, allocate fresh empty buckets,
reset `_size` to `0`, and replay every stored entry, in bucket order then
intra-bucket order, through the given insertion function
(`self[key] = value`). -/
def resizeWith (ins : HashTable K V → K → V → HashTable K V)
    (t : HashTable K V) : HashTable K V :=
  t.buckets.flatten.foldl (fun a e => ins a e.1 e.2)
    ⟨t.capacity * 2, 0, List.replicate (t.capacity * 2) []⟩

/-- Fuel-indexed `__setitem__`: fuel bounds the depth of nested `_resize`
calls (out of fuel, the resize is skipped).  On well-formed tables one unit
of fuel is enough — resize never re-triggers itself (theorem for C8). -/
def setitemF (hsh : K → Int) : Nat → HashTable K V → K → V → HashTable K V
  | 0 => setitemCore hsh (fun t => t)
  | f + 1 => setitemCore hsh (resizeWith (setitemF hsh f))

/-- Python `__setitem__`.  `t.size + 1` units of fuel are more than enough
(one is already enough on well-formed tables, see the C8 theorem). -/
def setitem (hsh : K → Int) (t : HashTable K V) (key : K) (val : V) :
    HashTable K V :=
  setitemF hsh (t.size + 1) t key val

/-- Python `__delitem__`: remove the first entry of the target bucket with a
matching key and decrement `_size`; failure (`KeyError` ≙ `none`) when the
key is absent. -/
def delitem (hsh : K → Int) (t : HashTable K V) (key : K) :
    Option (HashTable K V) :=
  let index := bucketIndex hsh t.capacity key
  match removeEntry key (t.buckets.getD index []) with
  | some b2 => some ⟨t.capacity, t.size - 1, t.buckets.set index b2⟩
  | none => none

/-- Well-formedness of a table state: positive capacity, exactly `capacity`
buckets, `_size` equal to the total number of stored entries, every entry
sitting in the bucket its key hashes to under the current capacity, and no
duplicate key inside a bucket. -/
structure Wf (hsh : K → Int) (t : HashTable K V) : Prop where
  cap_pos : 0 < t.capacity
  len_eq : t.buckets.length = t.capacity
  size_eq : t.size = (t.buckets.map List.length).sum
  coherent : ∀ j e, e ∈ t.buckets.getD j [] → bucketIndex hsh t.capacity e.1 = j
  bucketNodup : ∀ j, ((t.buckets.getD j []).map Prod.fst).Nodup

/-- The full data invariant: well-formedness plus the load-factor bound
`size / capacity ≤ 0.75` that holds between public operations. -/
def Inv (hsh : K → Int) (t : HashTable K V) : Prop :=
  Wf hsh t ∧ 4 * t.size ≤ 3 * t.capacity

/-- Tables reachable from a freshly constructed table (positive capacity)
by the public mutating operations `set` and (successful) `delete`. -/
inductive Reachable (hsh : K → Int) : HashTable K V → Prop where
  | init (c : Nat) (hc : 0 < c) : Reachable hsh (HashTable.init K V c)
  | set {t : HashTable K V} (k : K) (v : V) :
      Reachable hsh t → Reachable hsh (setitem hsh t k v)
  | del {t t' : HashTable K V} (k : K) :
      Reachable hsh t → delitem hsh t k = some t' → Reachable hsh t'

/-- The identity hash on `Int`, used to instantiate theorems on concrete
tables. -/
def idHash : Int → Int := fun k => k

/-- The table produced by the in-place-replace branch of `__setitem__`. -/
def replTable (hsh : K → Int) (t : HashTable K V) (key : K)
    (b2 : List (K × V)) : HashTable K V :=
  ⟨t.capacity, t.size, t.buckets.set (bucketIndex hsh t.capacity key) b2⟩

/-- The table produced by the append branch of `__setitem__` (before the
load-factor check). -/
def growTable (hsh : K → Int) (t : HashTable K V) (key : K) (val : V) :
    HashTable K V :=
  ⟨t.capacity, t.size + 1,
    t.buckets.set (bucketIndex hsh t.capacity key)
      ((t.buckets.getD (bucketIndex hsh t.capacity key) []) ++ [(key, val)])⟩

/-- Concrete table: one entry `(1, 7)` in a fresh capacity-4 table. -/
def wt1 : HashTable Int Int :=
  setitem idHash (HashTable.init Int Int 4) 1 7

/-- The table left after deleting key `1` from `wt1`. -/
def wt1del : HashTable Int Int := ⟨4, 0, [[], [], [], []]⟩

/-- Concrete table: one entry `(5, 1)` in a fresh capacity-16 table
(scenario B of the specification, with integer keys). -/
def wt1x : HashTable Int Int :=
  setitem idHash (HashTable.init Int Int 16) 5 1

/-- Concrete table: three entries in a capacity-4 table, load factor 0.75 —
one more distinct insertion crosses the threshold. -/
def wt3 : HashTable Int Int :=
  setitem idHash
    (setitem idHash (setitem idHash (HashTable.init Int Int 4) 0 10) 1 11)
    2 12

/-- The table left after deleting key `0` from `wt3`. -/
def wt3del : HashTable Int Int := ⟨4, 2, [[], [(1, 11)], [(2, 12)], []]⟩

/-! ### Elementary lemmas about bucket scans -/

theorem bucketIndex_lt (hsh : K → Int) {cap : Nat} (hc : 0 < cap) (key : K) :
    bucketIndex hsh cap key < cap := by
  have h1 : 0 ≤ hsh key % (cap : Int) := Int.emod_nonneg _ (by omega)
  have h2 : hsh key % (cap : Int) < (cap : Int) := Int.emod_lt_of_pos _ (by omega)
  unfold bucketIndex
  omega

theorem lookupB_eq_none_iff {key : K} {l : List (K × V)} :
    lookupB key l = none ↔ ∀ e ∈ l, e.1 ≠ key := by
  induction l with
  | nil => simp [lookupB]
  | cons e rest ih =>
    by_cases he : e.1 = key <;> simp [lookupB, he, ih]

theorem lookupB_append_of_none {key : K} {xs : List (K × V)}
    (h : lookupB key xs = none) (ys : List (K × V)) :
    lookupB key (xs ++ ys) = lookupB key ys := by
  induction xs with
  | nil => simp
  | cons e rest ih =>
    by_cases he : e.1 = key
    · simp [lookupB, he] at h
    · simp only [lookupB, if_neg he] at h
      simp only [List.cons_append, lookupB, if_neg he]
      exact ih h

theorem lookupB_append_of_some {key : K} {xs : List (K × V)} {v : V}
    (h : lookupB key xs = some v) (ys : List (K × V)) :
    lookupB key (xs ++ ys) = some v := by
  induction xs with
  | nil => simp [lookupB] at h
  | cons e rest ih =>
    by_cases he : e.1 = key
    · simp only [lookupB, if_pos he] at h
      simp only [List.cons_append, lookupB, if_pos he]
      exact h
    · simp only [lookupB, if_neg he] at h
      simp only [List.cons_append, lookupB, if_neg he]
      exact ih h

theorem replaceEntry_eq_none_iff {key : K} {val : V} {l : List (K × V)} :
    replaceEntry key val l = none ↔ lookupB key l = none := by
  induction l with
  | nil => simp [replaceEntry, lookupB]
  | cons e rest ih =>
    by_cases he : e.1 = key <;>
      simp [replaceEntry, lookupB, he, ih, Option.map_eq_none']

theorem replaceEntry_some_keys {key : K} {val : V} {l b2 : List (K × V)}
    (h : replaceEntry key val l = some b2) :
    b2.map Prod.fst = l.map Prod.fst := by
  induction l generalizing b2 with
  | nil => simp [replaceEntry] at h
  | cons e rest ih =>
    by_cases he : e.1 = key
    · simp only [replaceEntry, if_pos he, Option.some.injEq] at h
      subst h
      simp [he]
    · simp only [replaceEntry, if_neg he, Option.map_eq_some'] at h
      obtain ⟨b', hb', rfl⟩ := h
      simp [ih hb']

theorem replaceEntry_some_length {key : K} {val : V} {l b2 : List (K × V)}
    (h : replaceEntry key val l = some b2) : b2.length = l.length := by
  have := congrArg List.length (replaceEntry_some_keys h)
  simpa using this

theorem replaceEntry_some_lookup_self {key : K} {val : V} {l b2 : List (K × V)}
    (h : replaceEntry key val l = some b2) : lookupB key b2 = some val := by
  induction l generalizing b2 with
  | nil => simp [replaceEntry] at h
  | cons e rest ih =>
    by_cases he : e.1 = key
    · simp only [replaceEntry, if_pos he, Option.some.injEq] at h
      subst h
      simp [lookupB]
    · simp only [replaceEntry, if_neg he, Option.map_eq_some'] at h
      obtain ⟨b', hb', rfl⟩ := h
      simp only [lookupB, if_neg he]
      exact ih hb'

theorem replaceEntry_some_lookup_ne {key k' : K} {val : V} {l b2 : List (K × V)}
    (hne : k' ≠ key) (h : replaceEntry key val l = some b2) :
    lookupB k' b2 = lookupB k' l := by
  induction l generalizing b2 with
  | nil => simp [replaceEntry] at h
  | cons e rest ih =>
    by_cases he : e.1 = key
    · simp only [replaceEntry, if_pos he, Option.some.injEq] at h
      subst h
      have h1 : ¬ (key = k') := fun hh => hne hh.symm
      have h2 : ¬ (e.1 = k') := by rw [he]; exact h1
      simp only [lookupB, if_neg h1, if_neg h2]
    · simp only [replaceEntry, if_neg he, Option.map_eq_some'] at h
      obtain ⟨b', hb', rfl⟩ := h
      by_cases hek : e.1 = k'
      · simp only [lookupB, if_pos hek]
      · simp only [lookupB, if_neg hek]
        exact ih hb'

theorem removeEntry_eq_none_iff {key : K} {l : List (K × V)} :
    removeEntry key l = none ↔ lookupB key l = none := by
  induction l with
  | nil => simp [removeEntry, lookupB]
  | cons e rest ih =>
    by_cases he : e.1 = key <;>
      simp [removeEntry, lookupB, he, ih, Option.map_eq_none']

theorem removeEntry_some_decomp {key : K} {l b2 : List (K × V)}
    (h : removeEntry key l = some b2) :
    ∃ front e back, l = front ++ e :: back ∧ e.1 = key ∧
      lookupB key front = none ∧ b2 = front ++ back := by
  induction l generalizing b2 with
  | nil => simp [removeEntry] at h
  | cons e rest ih =>
    by_cases he : e.1 = key
    · simp only [removeEntry, if_pos he, Option.some.injEq] at h
      exact ⟨[], e, rest, by simp, he, by simp [lookupB], h.symm⟩
    · simp only [removeEntry, if_neg he, Option.map_eq_some'] at h
      obtain ⟨b', hb', rfl⟩ := h
      obtain ⟨front, e', back, rfl, hk, hfront, rfl⟩ := ih hb'
      exact ⟨e :: front, e', back, by simp, hk,
        by simp [lookupB, he, hfront], by simp⟩

/-! ### Lemmas about bucket arrays (`List.set`, `List.getD`, `flatten`) -/

theorem getD_set_self {α : Type} {l : List α} {i : Nat} (h : i < l.length)
    (x d : α) : (l.set i x).getD i d = x := by
  rw [List.getD_eq_getElem?_getD, List.getElem?_set_self h]
  rfl

theorem getD_set_ne {α : Type} {l : List α} {i j : Nat} (h : i ≠ j)
    (x d : α) : (l.set i x).getD j d = l.getD j d := by
  rw [List.getD_eq_getElem?_getD, List.getElem?_set_ne h,
    ← List.getD_eq_getElem?_getD]

theorem getD_replicate_nil {α : Type} (n j : Nat) :
    (List.replicate n ([] : List α)).getD j [] = [] := by
  rw [List.getD_eq_getElem?_getD, List.getElem?_replicate]
  split <;> rfl

theorem sum_map_length_set {α : Type} (l : List (List α)) (i : Nat)
    (x : List α) (h : i < l.length) :
    ((l.set i x).map List.length).sum + (l.getD i []).length
      = (l.map List.length).sum + x.length := by
  induction l generalizing i with
  | nil => simp at h
  | cons b rest ih =>
    cases i with
    | zero =>
      simp only [List.set, List.map_cons, List.sum_cons, List.getD_cons_zero]
      omega
    | succ n =>
      have hn : n < rest.length := by simpa using h
      have hrec := ih n hn
      simp only [List.set, List.map_cons, List.sum_cons, List.getD_cons_succ]
      omega

theorem exists_getD_of_mem_flatten {α : Type} {a : α} {bs : List (List α)}
    (h : a ∈ bs.flatten) : ∃ j, a ∈ bs.getD j [] := by
  induction bs with
  | nil => simp at h
  | cons b rest ih =>
    rw [List.flatten_cons, List.mem_append] at h
    cases h with
    | inl hb => exact ⟨0, by simpa [List.getD_cons_zero] using hb⟩
    | inr hr =>
      obtain ⟨j, hj⟩ := ih hr
      exact ⟨j + 1, by simpa [List.getD_cons_succ] using hj⟩

theorem lookupB_flatten_shift (hsh : K → Int) (cap : Nat) (k : K) :
    ∀ (bs : List (List (K × V))) (i₀ : Nat),
      (∀ j e, e ∈ bs.getD j [] → bucketIndex hsh cap e.1 = i₀ + j) →
      lookupB k bs.flatten =
        if bucketIndex hsh cap k < i₀ then none
        else lookupB k (bs.getD (bucketIndex hsh cap k - i₀) []) := by
  intro bs
  induction bs with
  | nil =>
    intro i₀ _
    simp only [List.flatten_nil, List.getD_nil]
    split <;> rfl
  | cons b rest ih =>
    intro i₀ hcoh
    have hb : ∀ e ∈ b, bucketIndex hsh cap e.1 = i₀ := by
      intro e he
      simpa using hcoh 0 e (by simpa [List.getD_cons_zero] using he)
    have hrest : ∀ j e, e ∈ rest.getD j [] →
        bucketIndex hsh cap e.1 = (i₀ + 1) + j := by
      intro j e he
      have := hcoh (j + 1) e (by simpa [List.getD_cons_succ] using he)
      omega
    rcases lt_trichotomy (bucketIndex hsh cap k) i₀ with hlt | heq | hgt
    · have h1 : lookupB k b = none := by
        rw [lookupB_eq_none_iff]
        intro e he hek
        have := hb e he
        rw [hek] at this
        omega
      rw [List.flatten_cons, lookupB_append_of_none h1, ih (i₀ + 1) hrest,
        if_pos (by omega : bucketIndex hsh cap k < i₀ + 1), if_pos hlt]
    · rw [List.flatten_cons]
      have hz : bucketIndex hsh cap k - i₀ = 0 := by omega
      rw [if_neg (by omega), hz, List.getD_cons_zero]
      cases hlb : lookupB k b with
      | some v => rw [lookupB_append_of_some hlb]
      | none =>
        rw [lookupB_append_of_none hlb, ih (i₀ + 1) hrest,
          if_pos (by omega : bucketIndex hsh cap k < i₀ + 1)]
    · have h1 : lookupB k b = none := by
        rw [lookupB_eq_none_iff]
        intro e he hek
        have := hb e he
        rw [hek] at this
        omega
      rw [List.flatten_cons, lookupB_append_of_none h1, ih (i₀ + 1) hrest,
        if_neg (by omega : ¬ bucketIndex hsh cap k < i₀ + 1), if_neg (by omega)]
      have hs : bucketIndex hsh cap k - i₀ = (bucketIndex hsh cap k - (i₀ + 1)) + 1 := by
        omega
      rw [hs, List.getD_cons_succ]

theorem nodup_keys_flatten_shift (hsh : K → Int) (cap : Nat) :
    ∀ (bs : List (List (K × V))) (i₀ : Nat),
      (∀ j e, e ∈ bs.getD j [] → bucketIndex hsh cap e.1 = i₀ + j) →
      (∀ j, ((bs.getD j []).map Prod.fst).Nodup) →
      (bs.flatten.map Prod.fst).Nodup := by
  intro bs
  induction bs with
  | nil => intro i₀ _ _; simp
  | cons b rest ih =>
    intro i₀ hcoh hnd
    have hb : ∀ e ∈ b, bucketIndex hsh cap e.1 = i₀ := by
      intro e he
      simpa using hcoh 0 e (by simpa [List.getD_cons_zero] using he)
    have hrest : ∀ j e, e ∈ rest.getD j [] →
        bucketIndex hsh cap e.1 = (i₀ + 1) + j := by
      intro j e he
      have := hcoh (j + 1) e (by simpa [List.getD_cons_succ] using he)
      omega
    have hndrest : ∀ j, ((rest.getD j []).map Prod.fst).Nodup := by
      intro j
      simpa [List.getD_cons_succ] using hnd (j + 1)
    rw [List.flatten_cons, List.map_append, List.nodup_append]
    refine ⟨by simpa [List.getD_cons_zero] using hnd 0, ih (i₀ + 1) hrest hndrest, ?_⟩
    intro a hab har
    obtain ⟨e, heb, rfl⟩ := List.mem_map.mp hab
    obtain ⟨e', her, hee⟩ := List.mem_map.mp har
    obtain ⟨j, hj⟩ := exists_getD_of_mem_flatten her
    have h1 : bucketIndex hsh cap e.1 = i₀ := hb e heb
    have h2 : bucketIndex hsh cap e'.1 = (i₀ + 1) + j := hrest j e' hj
    rw [hee] at h2
    omega

/-! ### The two mutation shapes of `__setitem__` -/

theorem setitemCore_replace {hsh : K → Int} {rz : HashTable K V → HashTable K V}
    {t : HashTable K V} {key : K} {val : V} {b2 : List (K × V)}
    (h : replaceEntry key val
      (t.buckets.getD (bucketIndex hsh t.capacity key) []) = some b2) :
    setitemCore hsh rz t key val = replTable hsh t key b2 := by
  unfold setitemCore replTable
  simp only [h]

theorem setitemCore_append_small {hsh : K → Int}
    {rz : HashTable K V → HashTable K V} {t : HashTable K V} {key : K} {val : V}
    (h : replaceEntry key val
      (t.buckets.getD (bucketIndex hsh t.capacity key) []) = none)
    (hload : ¬ 4 * (t.size + 1) > 3 * t.capacity) :
    setitemCore hsh rz t key val = growTable hsh t key val := by
  unfold setitemCore growTable
  simp only [h, if_neg hload]

theorem setitemCore_append_big {hsh : K → Int}
    {rz : HashTable K V → HashTable K V} {t : HashTable K V} {key : K} {val : V}
    (h : replaceEntry key val
      (t.buckets.getD (bucketIndex hsh t.capacity key) []) = none)
    (hload : 4 * (t.size + 1) > 3 * t.capacity) :
    setitemCore hsh rz t key val = rz (growTable hsh t key val) := by
  unfold setitemCore growTable
  simp only [h, if_pos hload]

theorem replTable_wf {hsh : K → Int} {t : HashTable K V} (hWf : Wf hsh t)
    {key : K} {val : V} {b2 : List (K × V)}
    (h : replaceEntry key val
      (t.buckets.getD (bucketIndex hsh t.capacity key) []) = some b2) :
    Wf hsh (replTable hsh t key b2) := by
  have hidx : bucketIndex hsh t.capacity key < t.buckets.length := by
    rw [hWf.len_eq]; exact bucketIndex_lt hsh hWf.cap_pos key
  have hkeys := replaceEntry_some_keys h
  refine ⟨hWf.cap_pos, ?_, ?_, ?_, ?_⟩
  · simpa [replTable, List.length_set] using hWf.len_eq
  · have hlen : b2.length = (t.buckets.getD (bucketIndex hsh t.capacity key) []).length :=
      replaceEntry_some_length h
    have := sum_map_length_set t.buckets (bucketIndex hsh t.capacity key) b2 hidx
    have hsz := hWf.size_eq
    simp only [replTable]
    omega
  · intro j e he
    by_cases hj : j = bucketIndex hsh t.capacity key
    · subst hj
      simp only [replTable] at he
      rw [getD_set_self hidx] at he
      have : e.1 ∈ b2.map Prod.fst := List.mem_map.mpr ⟨e, he, rfl⟩
      rw [hkeys] at this
      obtain ⟨e0, he0, he0k⟩ := List.mem_map.mp this
      have := hWf.coherent (bucketIndex hsh t.capacity key) e0 he0
      simp only [replTable]
      rw [← he0k]
      exact this
    · simp only [replTable] at he ⊢
      rw [getD_set_ne (fun hx => hj hx.symm)] at he
      exact hWf.coherent j e he
  · intro j
    by_cases hj : j = bucketIndex hsh t.capacity key
    · subst hj
      simp only [replTable]
      rw [getD_set_self hidx, hkeys]
      exact hWf.bucketNodup _
    · simp only [replTable]
      rw [getD_set_ne (fun hx => hj hx.symm)]
      exact hWf.bucketNodup j

theorem replTable_find {hsh : K → Int} {t : HashTable K V} (hWf : Wf hsh t)
    {key : K} {val : V} {b2 : List (K × V)}
    (h : replaceEntry key val
      (t.buckets.getD (bucketIndex hsh t.capacity key) []) = some b2)
    (k' : K) :
    find hsh (replTable hsh t key b2) k'
      = if k' = key then some val else find hsh t k' := by
  have hidx : bucketIndex hsh t.capacity key < t.buckets.length := by
    rw [hWf.len_eq]; exact bucketIndex_lt hsh hWf.cap_pos key
  by_cases hk : k' = key
  · subst hk
    simp only [find, replTable, if_pos rfl]
    rw [getD_set_self hidx]
    exact replaceEntry_some_lookup_self h
  · simp only [find, replTable, if_neg hk]
    by_cases hsame : bucketIndex hsh t.capacity k' = bucketIndex hsh t.capacity key
    · rw [hsame, getD_set_self hidx]
      exact replaceEntry_some_lookup_ne hk h
    · rw [getD_set_ne (fun hx => hsame hx.symm)]

theorem growTable_wf {hsh : K → Int} {t : HashTable K V} (hWf : Wf hsh t)
    {key : K} {val : V}
    (hnone : lookupB key
      (t.buckets.getD (bucketIndex hsh t.capacity key) []) = none) :
    Wf hsh (growTable hsh t key val) := by
  have hidx : bucketIndex hsh t.capacity key < t.buckets.length := by
    rw [hWf.len_eq]; exact bucketIndex_lt hsh hWf.cap_pos key
  refine ⟨hWf.cap_pos, ?_, ?_, ?_, ?_⟩
  · simpa [growTable, List.length_set] using hWf.len_eq
  · have := sum_map_length_set t.buckets (bucketIndex hsh t.capacity key)
      ((t.buckets.getD (bucketIndex hsh t.capacity key) []) ++ [(key, val)]) hidx
    have hsz := hWf.size_eq
    simp only [growTable, List.length_append, List.length_cons,
      List.length_nil] at this ⊢
    omega
  · intro j e he
    by_cases hj : j = bucketIndex hsh t.capacity key
    · subst hj
      simp only [growTable] at he ⊢
      rw [getD_set_self hidx] at he
      rcases List.mem_append.mp he with hb | hone
      · exact hWf.coherent _ e hb
      · have : e = (key, val) := by simpa using hone
        subst this
        rfl
    · simp only [growTable] at he ⊢
      rw [getD_set_ne (fun hx => hj hx.symm)] at he
      exact hWf.coherent j e he
  · intro j
    by_cases hj : j = bucketIndex hsh t.capacity key
    · subst hj
      simp only [growTable]
      rw [getD_set_self hidx, List.map_append]
      rw [List.nodup_append]
      refine ⟨hWf.bucketNodup _, by simp, ?_⟩
      intro a ha hone
      have hak : a = key := by simpa using hone
      subst hak
      obtain ⟨e, he, hek⟩ := List.mem_map.mp ha
      exact (lookupB_eq_none_iff.mp hnone e he) hek
    · simp only [growTable]
      rw [getD_set_ne (fun hx => hj hx.symm)]
      exact hWf.bucketNodup j

theorem growTable_find {hsh : K → Int} {t : HashTable K V} (hWf : Wf hsh t)
    {key : K} {val : V}
    (hnone : lookupB key
      (t.buckets.getD (bucketIndex hsh t.capacity key) []) = none)
    (k' : K) :
    find hsh (growTable hsh t key val) k'
      = if k' = key then some val else find hsh t k' := by
  have hidx : bucketIndex hsh t.capacity key < t.buckets.length := by
    rw [hWf.len_eq]; exact bucketIndex_lt hsh hWf.cap_pos key
  by_cases hk : k' = key
  · subst hk
    simp only [find, growTable, if_pos rfl]
    rw [getD_set_self hidx, lookupB_append_of_none hnone]
    simp [lookupB]
  · simp only [find, growTable, if_neg hk]
    by_cases hsame : bucketIndex hsh t.capacity k' = bucketIndex hsh t.capacity key
    · rw [hsame, getD_set_self hidx]
      cases hlb : lookupB k' (t.buckets.getD (bucketIndex hsh t.capacity key) []) with
      | some v =>
        rw [lookupB_append_of_some hlb]
      | none =>
        rw [lookupB_append_of_none hlb]
        have hg : ¬ ((key, val).1 = k') := fun hx => hk hx.symm
        simp only [lookupB, if_neg hg]
    · rw [getD_set_ne (fun hx => hsame hx.symm)]

/-! ### Freshly constructed tables, and `find` over the entry list -/

theorem wf_init (hsh : K → Int) {c : Nat} (hc : 0 < c) :
    Wf hsh (HashTable.init K V c) := by
  refine ⟨hc, by simp [HashTable.init], by simp [HashTable.init], ?_, ?_⟩
  · intro j e he
    simp only [HashTable.init] at he
    rw [getD_replicate_nil] at he
    simp at he
  · intro j
    simp only [HashTable.init]
    rw [getD_replicate_nil]
    simp

theorem inv_init (hsh : K → Int) {c : Nat} (hc : 0 < c) :
    Inv hsh (HashTable.init K V c) :=
  ⟨wf_init hsh hc, by simp [HashTable.init]⟩

theorem find_eq_lookupB_flatten {hsh : K → Int} {t : HashTable K V}
    (hWf : Wf hsh t) (k : K) :
    find hsh t k = lookupB k t.buckets.flatten := by
  have h := lookupB_flatten_shift hsh t.capacity k t.buckets 0
    (by intro j e he; simpa using hWf.coherent j e he)
  rw [h, if_neg (by omega)]
  simp [find]

theorem wf_nodup_keys {hsh : K → Int} {t : HashTable K V} (hWf : Wf hsh t) :
    (t.buckets.flatten.map Prod.fst).Nodup :=
  nodup_keys_flatten_shift hsh t.capacity t.buckets 0
    (by intro j e he; simpa using hWf.coherent j e he) hWf.bucketNodup

theorem wf_flatten_length {hsh : K → Int} {t : HashTable K V} (hWf : Wf hsh t) :
    t.buckets.flatten.length = t.size := by
  rw [List.length_flatten, hWf.size_eq]

/-! ### Unfolding `setitemF` along its three control paths -/

theorem setitemF_replace {hsh : K → Int} {t : HashTable K V} {key : K}
    {val : V} {b2 : List (K × V)} (f : Nat)
    (h : replaceEntry key val
      (t.buckets.getD (bucketIndex hsh t.capacity key) []) = some b2) :
    setitemF hsh f t key val = replTable hsh t key b2 := by
  cases f with
  | zero => exact setitemCore_replace h
  | succ f => exact setitemCore_replace h

theorem setitemF_no_resize {hsh : K → Int} {t : HashTable K V} {key : K}
    {val : V} (f : Nat)
    (h : replaceEntry key val
      (t.buckets.getD (bucketIndex hsh t.capacity key) []) = none)
    (hload : ¬ 4 * (t.size + 1) > 3 * t.capacity) :
    setitemF hsh f t key val = growTable hsh t key val := by
  cases f with
  | zero => exact setitemCore_append_small h hload
  | succ f => exact setitemCore_append_small h hload

theorem setitemF_resize {hsh : K → Int} {t : HashTable K V} {key : K}
    {val : V} (f : Nat)
    (h : replaceEntry key val
      (t.buckets.getD (bucketIndex hsh t.capacity key) []) = none)
    (hload : 4 * (t.size + 1) > 3 * t.capacity) :
    setitemF hsh (f + 1) t key val
      = resizeWith (setitemF hsh f) (growTable hsh t key val) :=
  setitemCore_append_big h hload

/-! ### The resize replay -/

theorem replay_foldl (hsh : K → Int) (C : Nat) (f : Nat) :
    ∀ (es done : List (K × V)) (acc : HashTable K V),
      Wf hsh acc → acc.capacity = C → acc.size = done.length →
      (∀ k, find hsh acc k = lookupB k done) →
      ((done ++ es).map Prod.fst).Nodup →
      4 * (done.length + es.length) ≤ 3 * C →
      Wf hsh (es.foldl (fun a e => setitemF hsh f a e.1 e.2) acc)
      ∧ (es.foldl (fun a e => setitemF hsh f a e.1 e.2) acc).capacity = C
      ∧ (es.foldl (fun a e => setitemF hsh f a e.1 e.2) acc).size
          = done.length + es.length
      ∧ (∀ k, find hsh (es.foldl (fun a e => setitemF hsh f a e.1 e.2) acc) k
          = lookupB k (done ++ es))
      ∧ es.foldl (fun a e => setitemF hsh f a e.1 e.2) acc
          = es.foldl (fun a e => setitemF hsh 0 a e.1 e.2) acc := by
  intro es
  induction es with
  | nil =>
    intro done acc hWf hcap hsize hfind hnd hload
    refine ⟨hWf, hcap, by simpa using hsize, ?_, rfl⟩
    intro k
    simpa using hfind k
  | cons e rest ih =>
    intro done acc hWf hcap hsize hfind hnd hload
    have hk_not_done : lookupB e.1 done = none := by
      rw [lookupB_eq_none_iff]
      intro e' he' hk
      have h1 : e'.1 ∈ done.map Prod.fst := List.mem_map.mpr ⟨e', he', rfl⟩
      have h2 : e.1 ∈ (e :: rest).map Prod.fst := by simp
      rw [List.map_append, List.nodup_append] at hnd
      exact hnd.2.2 (hk ▸ h1) h2
    have hfind_k : find hsh acc e.1 = none := (hfind e.1).trans hk_not_done
    have hrepl : replaceEntry e.1 e.2
        (acc.buckets.getD (bucketIndex hsh acc.capacity e.1) []) = none :=
      replaceEntry_eq_none_iff.mpr hfind_k
    have hstep_load : ¬ 4 * (acc.size + 1) > 3 * acc.capacity := by
      simp only [List.length_cons] at hload
      omega
    have hstep : setitemF hsh f acc e.1 e.2 = growTable hsh acc e.1 e.2 :=
      setitemF_no_resize f hrepl hstep_load
    have hstep0 : setitemF hsh 0 acc e.1 e.2 = growTable hsh acc e.1 e.2 :=
      setitemF_no_resize 0 hrepl hstep_load
    have hgWf : Wf hsh (growTable hsh acc e.1 e.2) := growTable_wf hWf hfind_k
    have hgfind : ∀ k, find hsh (growTable hsh acc e.1 e.2) k
        = lookupB k (done ++ [e]) := by
      intro k
      rw [growTable_find hWf hfind_k k]
      by_cases hk : k = e.1
      · subst hk
        rw [if_pos rfl, lookupB_append_of_none hk_not_done]
        simp [lookupB]
      · rw [if_neg hk]
        cases hlb : lookupB k done with
        | some v => rw [lookupB_append_of_some hlb, hfind k, hlb]
        | none =>
          rw [lookupB_append_of_none hlb, hfind k, hlb]
          have hg : ¬ (e.1 = k) := fun hx => hk hx.symm
          simp [lookupB, hg]
    have hnd' : (((done ++ [e]) ++ rest).map Prod.fst).Nodup := by
      simpa [List.append_assoc] using hnd
    have hload' : 4 * ((done ++ [e]).length + rest.length) ≤ 3 * C := by
      simp only [List.length_append, List.length_cons, List.length_nil] at hload ⊢
      omega
    have hrec := ih (done ++ [e]) (growTable hsh acc e.1 e.2) hgWf
      (by rw [← hcap]; rfl)
      (by simp only [List.length_append, List.length_cons, List.length_nil]
          rw [← hsize]; rfl)
      hgfind hnd' hload'
    rw [List.foldl_cons, List.foldl_cons, hstep, hstep0]
    refine ⟨hrec.1, hrec.2.1, ?_, ?_, hrec.2.2.2.2⟩
    · rw [hrec.2.2.1]
      simp only [List.length_append, List.length_cons, List.length_nil]
      omega
    · intro k
      rw [hrec.2.2.2.1 k]
      have : (done ++ [e]) ++ rest = done ++ e :: rest := by simp
      rw [this]

theorem find_def (hsh : K → Int) (t : HashTable K V) (key : K) :
    find hsh t key
      = lookupB key (t.buckets.getD (bucketIndex hsh t.capacity key) []) := rfl

theorem find_init (hsh : K → Int) (c : Nat) (k : K) :
    find hsh (HashTable.init K V c) k = none := by
  simp [find, HashTable.init, getD_replicate_nil, lookupB]

/-! ### The master theorem for `__setitem__` -/

theorem setitemF_master {hsh : K → Int} {t : HashTable K V} (hInv : Inv hsh t)
    (key : K) (val : V) (f : Nat) :
    Inv hsh (setitemF hsh (f + 1) t key val)
    ∧ (∀ k', find hsh (setitemF hsh (f + 1) t key val) k'
        = if k' = key then some val else find hsh t k')
    ∧ setitemF hsh (f + 1) t key val = setitemF hsh 1 t key val
    ∧ (find hsh t key = none →
        (setitemF hsh (f + 1) t key val).size = t.size + 1
        ∧ (4 * (t.size + 1) > 3 * t.capacity →
            (setitemF hsh (f + 1) t key val).capacity = 2 * t.capacity)
        ∧ (¬ 4 * (t.size + 1) > 3 * t.capacity →
            (setitemF hsh (f + 1) t key val).capacity = t.capacity))
    ∧ (find hsh t key ≠ none →
        (setitemF hsh (f + 1) t key val).size = t.size
        ∧ (setitemF hsh (f + 1) t key val).capacity = t.capacity
        ∧ ((setitemF hsh (f + 1) t key val).buckets.getD
              (bucketIndex hsh t.capacity key) []).map Prod.fst
            = (t.buckets.getD (bucketIndex hsh t.capacity key) []).map
                Prod.fst) := by
  obtain ⟨hWf, hLoad⟩ := hInv
  have hidx : bucketIndex hsh t.capacity key < t.buckets.length := by
    rw [hWf.len_eq]; exact bucketIndex_lt hsh hWf.cap_pos key
  cases hrep : replaceEntry key val
      (t.buckets.getD (bucketIndex hsh t.capacity key) []) with
  | some b2 =>
    have heq := setitemF_replace (f + 1) hrep
    have heq1 := setitemF_replace 1 hrep
    have hfound : find hsh t key ≠ none := by
      intro hn
      rw [find_def] at hn
      rw [replaceEntry_eq_none_iff.mpr hn] at hrep
      exact Option.noConfusion hrep
    rw [heq]
    refine ⟨⟨replTable_wf hWf hrep, hLoad⟩, replTable_find hWf hrep,
      by rw [heq1], fun hn => absurd hn hfound, fun _ => ⟨rfl, rfl, ?_⟩⟩
    show ((t.buckets.set (bucketIndex hsh t.capacity key) b2).getD
      (bucketIndex hsh t.capacity key) []).map Prod.fst = _
    rw [getD_set_self hidx]
    exact replaceEntry_some_keys hrep
  | none =>
    have hnoneB : lookupB key
        (t.buckets.getD (bucketIndex hsh t.capacity key) []) = none :=
      replaceEntry_eq_none_iff.mp hrep
    have hfind_none : find hsh t key = none := by rw [find_def]; exact hnoneB
    by_cases hload2 : 4 * (t.size + 1) > 3 * t.capacity
    · -- resize triggers
      have heq := setitemF_resize f hrep hload2
      have heq1 := setitemF_resize 0 hrep hload2
      have hgWf : Wf hsh (growTable hsh t key val) := growTable_wf hWf hnoneB
      have heslen : (growTable hsh t key val).buckets.flatten.length
          = t.size + 1 := wf_flatten_length hgWf
      have hesnd : ((([] : List (K × V))
          ++ (growTable hsh t key val).buckets.flatten).map Prod.fst).Nodup := by
        simpa using wf_nodup_keys hgWf
      have hloadC : 4 * (([] : List (K × V)).length
            + (growTable hsh t key val).buckets.flatten.length)
          ≤ 3 * (t.capacity * 2) := by
        simp only [List.length_nil, heslen]
        have := hWf.cap_pos
        omega
      have hrep_res := replay_foldl hsh (t.capacity * 2) f
        (growTable hsh t key val).buckets.flatten []
        (HashTable.init K V (t.capacity * 2))
        (wf_init hsh (by have := hWf.cap_pos; omega))
        rfl rfl
        (by intro k; rw [find_init]; rfl)
        hesnd hloadC
      have hrep_res0 := replay_foldl hsh (t.capacity * 2) 0
        (growTable hsh t key val).buckets.flatten []
        (HashTable.init K V (t.capacity * 2))
        (wf_init hsh (by have := hWf.cap_pos; omega))
        rfl rfl
        (by intro k; rw [find_init]; rfl)
        hesnd hloadC
      have hres : setitemF hsh (f + 1) t key val
          = (growTable hsh t key val).buckets.flatten.foldl
              (fun a e => setitemF hsh f a e.1 e.2)
              (HashTable.init K V (t.capacity * 2)) := by
        rw [heq]; rfl
      have hres1 : setitemF hsh 1 t key val
          = (growTable hsh t key val).buckets.flatten.foldl
              (fun a e => setitemF hsh 0 a e.1 e.2)
              (HashTable.init K V (t.capacity * 2)) := by
        rw [heq1]; rfl
      obtain ⟨hrWf, hrcap, hrsize, hrfind, hrfuel⟩ := hrep_res
      rw [hres]
      refine ⟨⟨hrWf, ?_⟩, ?_, ?_, ?_, fun hne => absurd hfind_none hne⟩
      · rw [hrcap, hrsize]
        simp only [List.length_nil, heslen]
        have := hWf.cap_pos
        omega
      · intro k'
        rw [hrfind k']
        have h1 : lookupB k' (([] : List (K × V))
            ++ (growTable hsh t key val).buckets.flatten)
            = find hsh (growTable hsh t key val) k' := by
          rw [find_eq_lookupB_flatten hgWf]
          rfl
        rw [h1, growTable_find hWf hnoneB k']
      · rw [hrfuel, hres1]
      · intro _
        refine ⟨by rw [hrsize]; simp [heslen], fun _ => by rw [hrcap]; omega,
          fun hc => absurd hload2 hc⟩
    · -- no resize
      have heq := setitemF_no_resize (f + 1) hrep hload2
      have heq1 := setitemF_no_resize 1 hrep hload2
      rw [heq]
      refine ⟨⟨growTable_wf hWf hnoneB, ?_⟩, growTable_find hWf hnoneB,
        by rw [heq1], fun _ => ⟨rfl, fun hc => absurd hc hload2, fun _ => rfl⟩,
        fun hne => absurd hfind_none hne⟩
      show 4 * (t.size + 1) ≤ 3 * t.capacity
      omega

/-! ### `__delitem__` -/

theorem delitem_eq_none_iff {hsh : K → Int} {t : HashTable K V} {key : K} :
    delitem hsh t key = none ↔ find hsh t key = none := by
  rw [find_def]
  unfold delitem
  cases hrem : removeEntry key
      (t.buckets.getD (bucketIndex hsh t.capacity key) []) with
  | some b2 =>
    simp only [hrem]
    constructor
    · exact fun h => Option.noConfusion h
    · intro h
      have := (removeEntry_eq_none_iff.mpr h).symm.trans hrem
      exact Option.noConfusion this
  | none =>
    simp only [hrem]
    exact ⟨fun _ => removeEntry_eq_none_iff.mp hrem, fun _ => trivial⟩

theorem delitem_master {hsh : K → Int} {t : HashTable K V} (hInv : Inv hsh t)
    (key : K) {t2 : HashTable K V} (hdel : delitem hsh t key = some t2) :
    Inv hsh t2
    ∧ t2.size + 1 = t.size
    ∧ t2.capacity = t.capacity
    ∧ find hsh t2 key = none
    ∧ (∀ k', k' ≠ key → find hsh t2 k' = find hsh t k')
    ∧ (∃ front e back,
        t.buckets.getD (bucketIndex hsh t.capacity key) [] = front ++ e :: back
        ∧ e.1 = key ∧ lookupB key front = none
        ∧ t2.buckets.getD (bucketIndex hsh t.capacity key) []
            = front ++ back) := by
  obtain ⟨hWf, hLoad⟩ := hInv
  have hidx : bucketIndex hsh t.capacity key < t.buckets.length := by
    rw [hWf.len_eq]; exact bucketIndex_lt hsh hWf.cap_pos key
  unfold delitem at hdel
  cases hrem : removeEntry key
      (t.buckets.getD (bucketIndex hsh t.capacity key) []) with
  | none =>
    simp only [hrem] at hdel
    exact Option.noConfusion hdel
  | some b2 =>
    simp only [hrem, Option.some.injEq] at hdel
    obtain ⟨front, e, back, hdecomp, hek, hfront, hb2⟩ :=
      removeEntry_some_decomp hrem
    subst hb2
    -- the bucket keys, with nodup, give absence of `key` in front and back
    have hnod := hWf.bucketNodup (bucketIndex hsh t.capacity key)
    rw [hdecomp, List.map_append, List.map_cons, hek, List.nodup_append] at hnod
    have hkey_not_back : key ∉ back.map Prod.fst := by
      have := hnod.2.1
      rw [List.nodup_cons] at this
      exact this.1
    have hkey_not_front : key ∉ front.map Prod.fst := by
      intro hmem
      obtain ⟨e', he', he'k⟩ := List.mem_map.mp hmem
      exact (lookupB_eq_none_iff.mp hfront e' he') he'k
    -- size bookkeeping
    have hsum := sum_map_length_set t.buckets
      (bucketIndex hsh t.capacity key) (front ++ back) hidx
    have hbl : (t.buckets.getD (bucketIndex hsh t.capacity key) []).length
        = front.length + back.length + 1 := by
      rw [hdecomp]
      simp only [List.length_append, List.length_cons]
      omega
    have hsz := hWf.size_eq
    have hsize_pos : 1 ≤ t.size := by
      have h0 := sum_map_length_set t.buckets
        (bucketIndex hsh t.capacity key) [] hidx
      simp only [List.length_nil] at h0
      omega
    have ht2size : t2.size = t.size - 1 := by rw [← hdel]
    have ht2cap : t2.capacity = t.capacity := by rw [← hdel]
    have ht2buckets : t2.buckets
        = t.buckets.set (bucketIndex hsh t.capacity key) (front ++ back) := by
      rw [← hdel]
    have hgetD : t2.buckets.getD (bucketIndex hsh t.capacity key) []
        = front ++ back := by
      rw [ht2buckets, getD_set_self hidx]
    have hsub : (front ++ back).Sublist
        (t.buckets.getD (bucketIndex hsh t.capacity key) []) := by
      rw [hdecomp]
      exact List.Sublist.append_left (List.sublist_cons_self e back) front
    have hWf2 : Wf hsh t2 := by
      refine ⟨?_, ?_, ?_, ?_, ?_⟩
      · rw [ht2cap]; exact hWf.cap_pos
      · rw [ht2buckets, ht2cap, List.length_set]; exact hWf.len_eq
      · rw [ht2buckets, ht2size]
        simp only [List.length_append] at hsum
        omega
      · intro j e' he'
        rw [ht2cap]
        by_cases hj : j = bucketIndex hsh t.capacity key
        · subst hj
          rw [ht2buckets, getD_set_self hidx] at he'
          have : e' ∈ t.buckets.getD (bucketIndex hsh t.capacity key) [] :=
            hsub.mem he'
          exact hWf.coherent _ e' this
        · rw [ht2buckets, getD_set_ne (fun hx => hj hx.symm)] at he'
          exact hWf.coherent j e' he'
      · intro j
        by_cases hj : j = bucketIndex hsh t.capacity key
        · subst hj
          rw [ht2buckets, getD_set_self hidx]
          exact List.Nodup.sublist (List.Sublist.map Prod.fst hsub)
            (hWf.bucketNodup _)
        · rw [ht2buckets, getD_set_ne (fun hx => hj hx.symm)]
          exact hWf.bucketNodup j
    have hfind2_key : find hsh t2 key = none := by
      rw [find_def, ht2cap, hgetD, lookupB_eq_none_iff]
      intro e' he' he'k
      rcases List.mem_append.mp he' with hm | hm
      · exact hkey_not_front (List.mem_map.mpr ⟨e', hm, he'k⟩)
      · exact hkey_not_back (List.mem_map.mpr ⟨e', hm, he'k⟩)
    refine ⟨⟨hWf2, by omega⟩, by omega, ht2cap, hfind2_key, ?_,
      front, e, back, hdecomp, hek, hfront, hgetD⟩
    intro k' hk'
    rw [find_def, find_def, ht2cap]
    by_cases hsame : bucketIndex hsh t.capacity k'
        = bucketIndex hsh t.capacity key
    · rw [hsame, hgetD, hdecomp]
      cases hlf : lookupB k' front with
      | some v => rw [lookupB_append_of_some hlf, lookupB_append_of_some hlf]
      | none =>
        rw [lookupB_append_of_none hlf, lookupB_append_of_none hlf]
        have hg : ¬ (e.1 = k') := by rw [hek]; exact fun hx => hk' hx.symm
        simp only [lookupB, if_neg hg]
    · rw [ht2buckets, getD_set_ne (fun hx => hsame hx.symm)]

/-! ### Invariant preservation along all reachable states -/

theorem inv_setitem {hsh : K → Int} {t : HashTable K V} (hInv : Inv hsh t)
    (k : K) (v : V) : Inv hsh (setitem hsh t k v) :=
  (setitemF_master hInv k v t.size).1

theorem reachable_inv {hsh : K → Int} {t : HashTable K V}
    (h : Reachable hsh t) : Inv hsh t := by
  induction h with
  | init c hc => exact inv_init hsh hc
  | set k v _ ih => exact inv_setitem ih k v
  | del k _ hdel ih => exact (delitem_master ih k hdel).1

theorem containsKey_eq_false_iff {hsh : K → Int} {t : HashTable K V}
    {key : K} :
    containsKey hsh t key = false ↔ find hsh t key = none := by
  rw [find_def, containsKey, lookupB_eq_none_iff, List.any_eq_false]
  constructor
  · intro h e he
    simpa using h e he
  · intro h e he
    simpa using h e he

/-! ### Invariants of the concrete witness tables -/

theorem wt1_inv : Inv idHash wt1 :=
  inv_setitem (inv_init idHash (by decide)) 1 7

theorem wt1x_inv : Inv idHash wt1x :=
  inv_setitem (inv_init idHash (by decide)) 5 1

theorem wt3_inv : Inv idHash wt3 :=
  inv_setitem
    (inv_setitem (inv_setitem (inv_init idHash (by decide)) 0 10) 1 11) 2 12

/-! ### The claims -/

/-- Claim C1: for every key `k` and value `v`, performing `set(k, v)` on any
table (satisfying the data invariant every reachable table satisfies) and
then `get(k)` on the resulting table returns `v`. -/
theorem C1_set_then_get (hsh : K → Int) (t : HashTable K V)
    (hInv : Inv hsh t) (k : K) (v : V) :
    getitem hsh (setitem hsh t k v) k = some v := by
  have h := (setitemF_master hInv k v t.size).2.1 k
  simpa [getitem, setitem] using h

/-- Claim C1, witness: on the concrete table `wt3`, setting key `7` to `42`
and reading it back yields `42`. -/
theorem C1_set_then_get_witness :
    Inv idHash wt3
    ∧ getitem idHash (setitem idHash wt3 7 42) 7 = some 42 :=
  ⟨wt3_inv, C1_set_then_get idHash wt3 wt3_inv 7 42⟩

/-- Claim C2: when a `set` of an absent key pushes the load factor above
0.75, the triggered resize doubles the capacity, reinserts every entry under
the new capacity (the result is well-formed, so every entry sits at its
recomputed index), the size counter equals the same total count
(`old size + 1`, nothing lost or duplicated), and every previously inserted
key remains retrievable with its most recently set value. -/
theorem C2_resize_rehash (hsh : K → Int) (t : HashTable K V)
    (hInv : Inv hsh t) (k : K) (v : V)
    (habs : find hsh t k = none)
    (hcross : 4 * (t.size + 1) > 3 * t.capacity) :
    (setitem hsh t k v).capacity = 2 * t.capacity
    ∧ (setitem hsh t k v).size = t.size + 1
    ∧ Wf hsh (setitem hsh t k v)
    ∧ (∀ k', find hsh (setitem hsh t k v) k'
        = if k' = k then some v else find hsh t k') := by
  obtain ⟨hI, hf, _, hbr, _⟩ := setitemF_master hInv k v t.size
  exact ⟨(hbr habs).2.1 hcross, (hbr habs).1, hI.1, hf⟩

/-- Claim C2, witness: inserting a fourth key into the capacity-4,
three-entry table `wt3` crosses the threshold; capacity doubles to 8, size
becomes 4, and the old key `1` is still mapped to `11`. -/
theorem C2_resize_rehash_witness :
    (Inv idHash wt3 ∧ find idHash wt3 3 = none
      ∧ 4 * (wt3.size + 1) > 3 * wt3.capacity)
    ∧ (setitem idHash wt3 3 13).capacity = 2 * wt3.capacity
    ∧ (setitem idHash wt3 3 13).size = wt3.size + 1
    ∧ find idHash (setitem idHash wt3 3 13) 1 = some 11 :=
  ⟨⟨wt3_inv, by decide, by decide⟩,
   (C2_resize_rehash idHash wt3 wt3_inv 3 13 (by decide) (by decide)).1,
   (C2_resize_rehash idHash wt3 wt3_inv 3 13 (by decide) (by decide)).2.1,
   ((C2_resize_rehash idHash wt3 wt3_inv 3 13 (by decide)
      (by decide)).2.2.2 1).trans (by decide)⟩

/-- Claim C3: after any `set` on an invariant-satisfying table,
`size / capacity ≤ 0.75` (exactly: `4·size ≤ 3·capacity`); and whenever the
insertion makes the ratio exceed 0.75, a resize (doubling the capacity) runs
before the `set` returns. -/
theorem C3_load_factor (hsh : K → Int) (t : HashTable K V)
    (hInv : Inv hsh t) (k : K) (v : V) :
    4 * (setitem hsh t k v).size ≤ 3 * (setitem hsh t k v).capacity
    ∧ (find hsh t k = none → 4 * (t.size + 1) > 3 * t.capacity →
        (setitem hsh t k v).capacity = 2 * t.capacity) := by
  obtain ⟨hI, _, _, hbr, _⟩ := setitemF_master hInv k v t.size
  exact ⟨hI.2, fun h1 h2 => (hbr h1).2.1 h2⟩

/-- Claim C3, witness: the threshold-crossing insertion into `wt3` leaves
the load factor at most 0.75 and has doubled the capacity. -/
theorem C3_load_factor_witness :
    Inv idHash wt3
    ∧ 4 * (setitem idHash wt3 3 13).size
        ≤ 3 * (setitem idHash wt3 3 13).capacity
    ∧ (setitem idHash wt3 3 13).capacity = 2 * wt3.capacity :=
  ⟨wt3_inv, (C3_load_factor idHash wt3 wt3_inv 3 13).1,
   (C3_load_factor idHash wt3 wt3_inv 3 13).2 (by decide) (by decide)⟩

/-- Claim C5: for a key already present, `set(k, v')` replaces the stored
value in place — size and capacity are unchanged and the key sequence of the
target bucket (hence the entry's position) is unchanged — and `get(k)`
afterwards returns the new value. -/
theorem C5_replace_in_place (hsh : K → Int) (t : HashTable K V)
    (hInv : Inv hsh t) (k : K) (v w : V)
    (hfound : find hsh t k = some w) :
    (setitem hsh t k v).size = t.size
    ∧ (setitem hsh t k v).capacity = t.capacity
    ∧ find hsh (setitem hsh t k v) k = some v
    ∧ ((setitem hsh t k v).buckets.getD
          (bucketIndex hsh t.capacity k) []).map Prod.fst
        = (t.buckets.getD (bucketIndex hsh t.capacity k) []).map Prod.fst := by
  obtain ⟨_, hf, _, _, hne⟩ := setitemF_master hInv k v t.size
  have hx := hne (by rw [hfound]; exact fun h => Option.noConfusion h)
  exact ⟨hx.1, hx.2.1, by simpa using hf k, hx.2.2⟩

/-- Claim C5, witness (scenario B): after `set(5, 1)` then `set(5, 10)` on a
fresh capacity-16 table, the size is 1 and `get(5)` returns 10. -/
theorem C5_replace_in_place_witness :
    (Inv idHash wt1x ∧ find idHash wt1x 5 = some 1)
    ∧ (setitem idHash wt1x 5 10).size = wt1x.size
    ∧ find idHash (setitem idHash wt1x 5 10) 5 = some 10
    ∧ (setitem idHash wt1x 5 10).size = 1 :=
  ⟨⟨wt1x_inv, by decide⟩,
   (C5_replace_in_place idHash wt1x wt1x_inv 5 10 1 (by decide)).1,
   (C5_replace_in_place idHash wt1x wt1x_inv 5 10 1 (by decide)).2.2.1,
   ((C5_replace_in_place idHash wt1x wt1x_inv 5 10 1 (by decide)).1).trans
     (by decide)⟩

/-- Claim C6: `get` and `delete` on an absent key fail (`KeyError` ≙
`none`); a successful `delete(k)` followed immediately by another
`delete(k)` fails on the second call; a successful delete removes exactly
the matching entry, preserves the relative order of the remaining entries
of its bucket, and decrements the size by one. -/
theorem C6_delete_semantics (hsh : K → Int) (t : HashTable K V)
    (hInv : Inv hsh t) (k : K) :
    (containsKey hsh t k = false →
      getitem hsh t k = none ∧ delitem hsh t k = none)
    ∧ (∀ t2, delitem hsh t k = some t2 →
        delitem hsh t2 k = none
        ∧ t2.size + 1 = t.size
        ∧ (∃ front e back,
            t.buckets.getD (bucketIndex hsh t.capacity k) []
              = front ++ e :: back
            ∧ e.1 = k ∧ lookupB k front = none
            ∧ t2.buckets.getD (bucketIndex hsh t.capacity k) []
                = front ++ back)) := by
  refine ⟨?_, ?_⟩
  · intro habs
    have hf : find hsh t k = none := containsKey_eq_false_iff.mp habs
    exact ⟨hf, delitem_eq_none_iff.mpr hf⟩
  · intro t2 hdel
    obtain ⟨_, hsz, _, hf2, _, hdecomp⟩ := delitem_master hInv k hdel
    exact ⟨delitem_eq_none_iff.mpr hf2, hsz, hdecomp⟩

/-- Claim C6, witness: on `wt1` (one entry, key `1`), key `5` is absent and
`get`/`delete` fail on it; deleting key `1` succeeds (result `wt1del`) and a
second `delete(1)` fails. -/
theorem C6_delete_semantics_witness :
    (Inv idHash wt1 ∧ containsKey idHash wt1 5 = false
      ∧ delitem idHash wt1 1 = some wt1del)
    ∧ (getitem idHash wt1 5 = none ∧ delitem idHash wt1 5 = none)
    ∧ delitem idHash wt1del 1 = none
    ∧ wt1del.size + 1 = wt1.size :=
  ⟨⟨wt1_inv, by decide, by decide⟩,
   (C6_delete_semantics idHash wt1 wt1_inv 5).1 (by decide),
   ((C6_delete_semantics idHash wt1 wt1_inv 1).2 wt1del (by decide)).1,
   ((C6_delete_semantics idHash wt1 wt1_inv 1).2 wt1del (by decide)).2.1⟩

/-- Claim C7: in every table reachable from a freshly constructed table by
`set` and `delete`, the size counter equals the total number of stored
entries, and the keys across all buckets are pairwise distinct (so a key
appears in at most one bucket and at most once within it). -/
theorem C7_reachable_invariant (hsh : K → Int) (t : HashTable K V)
    (h : Reachable hsh t) :
    t.size = (t.buckets.map List.length).sum
    ∧ (t.buckets.flatten.map Prod.fst).Nodup := by
  have hInv := reachable_inv h
  exact ⟨hInv.1.size_eq, wf_nodup_keys hInv.1⟩

/-- Claim C7, witness: `wt1` is reachable and satisfies both invariants. -/
theorem C7_reachable_invariant_witness :
    Reachable idHash wt1
    ∧ wt1.size = (wt1.buckets.map List.length).sum
    ∧ (wt1.buckets.flatten.map Prod.fst).Nodup :=
  ⟨Reachable.set 1 7 (Reachable.init 4 (by decide)),
   (C7_reachable_invariant idHash wt1
      (Reachable.set 1 7 (Reachable.init 4 (by decide)))).1,
   (C7_reachable_invariant idHash wt1
      (Reachable.set 1 7 (Reachable.init 4 (by decide)))).2⟩

/-- Claim C8: on an invariant-satisfying table the resize replay terminates
after a single pass and never recursively triggers a further resize: the
result of `__setitem__` is independent of the nesting budget — any fuel
`f + 1` gives the same table as any fuel `g + 1` (in particular fuel 1,
which permits no nested resize at all). -/
theorem C8_resize_single_pass (hsh : K → Int) (t : HashTable K V)
    (hInv : Inv hsh t) (k : K) (v : V) (f g : Nat) :
    setitemF hsh (f + 1) t k v = setitemF hsh (g + 1) t k v := by
  have h1 := (setitemF_master hInv k v f).2.2.1
  have h2 := (setitemF_master hInv k v g).2.2.1
  rw [h1, h2]

/-- Claim C8, witness: on `wt3` the threshold-crossing insertion gives the
same table with fuel 1 (no nested resize allowed) as with fuel 6. -/
theorem C8_resize_single_pass_witness :
    Inv idHash wt3
    ∧ setitemF idHash (0 + 1) wt3 3 13 = setitemF idHash (5 + 1) wt3 3 13 :=
  ⟨wt3_inv, C8_resize_single_pass idHash wt3 wt3_inv 3 13 0 5⟩

/-- Claim C9 (amended): constructing a table with a non-positive initial
capacity does not fail — the constructor performs no validation and returns
normally for every capacity, storing the given capacity, size 0 and
`capacity` empty buckets; a non-positive capacity only causes a failure
later, at the first operation that computes `hash(key) % capacity`. -/
theorem C9_init_unvalidated (K V : Type) (c : Nat) :
    (HashTable.init K V c).capacity = c
    ∧ (HashTable.init K V c).size = 0
    ∧ (HashTable.init K V c).buckets = List.replicate c [] :=
  ⟨rfl, rfl, rfl⟩

/-- Claim C9, counterexample: constructing with capacity `0` (non-positive)
raises nothing — `__init__` returns a normal table (capacity 0, size 0, no
buckets) instead of failing with `InvalidCapacity`. -/
theorem C9_counterexample_init_zero :
    HashTable.init Int Int 0 = ⟨0, 0, []⟩ := rfl

/-- Claim C10: for distinct keys `k' ≠ k`, `set(k, v)` (even when it
triggers a resize) and a successful `delete(k)` leave `get(k')`
unchanged. -/
theorem C10_frame (hsh : K → Int) (t : HashTable K V) (hInv : Inv hsh t)
    (k k' : K) (v : V) (hne : k' ≠ k) :
    find hsh (setitem hsh t k v) k' = find hsh t k'
    ∧ (∀ t2, delitem hsh t k = some t2 → find hsh t2 k' = find hsh t k') := by
  obtain ⟨_, hf, _, _, _⟩ := setitemF_master hInv k v t.size
  refine ⟨by simpa [setitem, if_neg hne] using hf k', fun t2 hdel => ?_⟩
  exact (delitem_master hInv k hdel).2.2.2.2.1 k' hne

/-- Claim C10, witness: on `wt3`, inserting key `3` (which resizes) and
deleting key `0` both leave `get(1) = 11` unchanged. -/
theorem C10_frame_witness :
    (Inv idHash wt3 ∧ (1 : Int) ≠ 0 ∧ delitem idHash wt3 0 = some wt3del)
    ∧ find idHash (setitem idHash wt3 3 13) 1 = find idHash wt3 1
    ∧ find idHash wt3del 1 = find idHash wt3 1 :=
  ⟨⟨wt3_inv, by decide, by decide⟩,
   (C10_frame idHash wt3 wt3_inv 3 1 13 (by decide)).1,
   (C10_frame idHash wt3 wt3_inv 0 1 13 (by decide)).2 wt3del (by decide)⟩

end HashTableSpec
